import Mathlib

/-!
Verification of the crawl / index / BM25-rank pipeline
(scripts crawl.py, build_index.py, bm25_rank.py).

Python strings are embedded as lists of characters (Python strings are
sequences of code points).  Command-line parsing, JSON file IO and
timestamps are external concerns and are not modelled; the fetcher
(crawl4ai) and relative-URL resolution (urllib.parse.urljoin) are
external collaborators and appear as explicit function parameters.
-/

/-! ### Python string primitives -/

/-- Embeds Python `s.lower()` (per-code-point lowercasing). -/
def pyLower (cs : List Char) : List Char := cs.map Char.toLower

/-- Embeds Python `s.split()` with no argument: split on whitespace runs,
dropping empty pieces. -/
def pySplitWs (cs : List Char) : List (List Char) :=
  (cs.splitOnP (fun c => c.isWhitespace)).filter (fun w => w ≠ [])

/-- Embeds Python `s.strip()`: remove leading and trailing whitespace. -/
def pyStrip (cs : List Char) : List Char :=
  ((cs.dropWhile Char.isWhitespace).reverse.dropWhile Char.isWhitespace).reverse

/-- Embeds Python `a or c` on strings (the empty string is falsy). -/
def pyOr (a c : List Char) : List Char := if a = [] then c else a

/-- Embeds Python `sep.join(parts)`. -/
def joinSep (sep : List Char) : List (List Char) → List Char
  | [] => []
  | [x] => x
  | x :: y :: xs => x ++ sep ++ joinSep sep (y :: xs)

/-- Embeds Python `l[:k]` for an `int` slice bound `k`: a nonnegative bound
takes the first `k` elements, a negative bound drops the last `-k`. -/
def pySlice {α : Type} (k : ℤ) (l : List α) : List α :=
  if 0 ≤ k then l.take k.toNat else l.take (l.length - (-k).toNat)

/-- Embeds Python `s.split(sep, 1)`: the part before the first occurrence of
`sep`, and (when `sep` occurs) the part after it. -/
def splitFirst (sep : Char) : List Char → List Char × Option (List Char)
  | [] => ([], none)
  | c :: rest =>
    if c = sep then ([], some rest)
    else
      let r := splitFirst sep rest
      (c :: r.1, r.2)

/-! ### URL parsing (urllib.parse.urlparse, as used by crawl.py)

Mirrors CPython `urlsplit`: an optional scheme (a nonempty run of
alphanumerics and `+`/`-`/`.` starting with a letter, before the first
colon, lowercased), a netloc after a leading `//` running to the first
`/`, `?` or `#`, then the fragment split off at the first `#` and the
query at the first `?`.  The params component (`;`) of `urlparse`, which
crawl.py never reads, is left inside the path. -/

/-- Characters CPython allows inside a URL scheme. -/
def schemeChar (c : Char) : Bool := c.isAlphanum || c = '+' || c = '-' || c = '.'

/-- The components `urlparse` returns (those crawl.py reads). -/
structure UrlParts where
  scheme : List Char
  netloc : List Char
  path : List Char
  query : List Char
  fragment : List Char
deriving DecidableEq, Repr

/-- Scheme detection of CPython urlsplit: the text before the first colon,
when nonempty, starting with a letter and made of scheme characters, is the
scheme (lowercased); the remainder is returned alongside. -/
def schemeSplit (u : List Char) : List Char × List Char :=
  match splitFirst ':' u with
  | (pre, some post) =>
    if pre ≠ [] ∧ pre.head?.any Char.isAlpha ∧ pre.all schemeChar then
      (pre.map Char.toLower, post)
    else ([], u)
  | (_, none) => ([], u)

/-- Netloc detection of CPython urlsplit: after a leading `//`, the netloc
runs to the first `/`, `?` or `#`; the remainder is returned alongside. -/
def netlocSplit (r1 : List Char) : List Char × List Char :=
  if r1.take 2 = ['/', '/'] then
    let n := (r1.drop 2).takeWhile (fun c => ¬(c = '/' ∨ c = '?' ∨ c = '#'))
    (n, (r1.drop 2).drop n.length)
  else ([], r1)

/-- Embeds `urllib.parse.urlparse` (the fields crawl.py uses): scheme,
then netloc, then the fragment split off at the first `#` and the query at
the first `?`. -/
def urlsplit (u : List Char) : UrlParts :=
  let sr := schemeSplit u
  let nr := netlocSplit sr.2
  let fr := splitFirst '#' nr.2
  let qr := splitFirst '?' fr.1
  { scheme := sr.1, netloc := nr.1, path := qr.1,
    query := (qr.2).getD [], fragment := (fr.2).getD [] }

/-! ### crawl.py -/

/-- What one `crawler.arun` call yields, as crawl.py reads it: the success
flag, `metadata.get("title", "")` (`none` when the metadata dict is falsy),
`markdown.raw_markdown` (`none` when the markdown field is falsy), and
`links.get("internal", [])` (`none` when the links dict is falsy). -/
structure FetchResult where
  success : Bool
  metadataTitle : Option (List Char)
  rawMarkdown : Option (List Char)
  linksInternal : Option (List (List Char))
deriving DecidableEq

/-- One entry of the discovered-URLs output. -/
structure DiscoveredPage where
  url : List Char
  title : List Char
  headings : List (List Char)
  snippet : List Char
deriving DecidableEq

/-- Heading extraction: of the first 20 lines of the markdown, the lines
starting with `#`, with the leading `#` run removed and stripped, kept when
nonempty. -/
def headingsOf (md : List Char) : List (List Char) :=
  ((md.splitOn '\n').take 20).filterMap (fun line =>
    if line.head? = some '#' then
      let h := pyStrip (line.dropWhile (fun c => c = '#'))
      if h ≠ [] then some h else none
    else none)

/-- Snippet extraction: markdown with all `#` removed and stripped, first
150 characters, stripped again. -/
def snippetOf (md : List Char) : List Char :=
  pyStrip ((pyStrip (md.filter (fun c => c ≠ '#'))).take 150)

/-- The DiscoveredPage crawl.py appends for a successfully fetched URL. -/
def mkPage (current : List Char) (r : FetchResult) : DiscoveredPage :=
  { url := current,
    title := pyOr (r.metadataTitle.getD [])
      (pyOr (((current.splitOn '/').getLast?).getD []) ("Home".data)),
    headings := (match r.rawMarkdown with
      | some md => headingsOf md
      | none => []).take 5,
    snippet := match r.rawMarkdown with
      | some md => snippetOf md
      | none => [] }

/-- The string `f"{scheme}://{netloc}{path}"` crawl.py builds for a link. -/
def cleanUrl (scheme netloc path : List Char) : List Char :=
  scheme ++ ':' :: '/' :: '/' :: (netloc ++ path)

/-- The inner link loop of crawl.py: resolve each link against the current
URL, keep it when its host is `domain`, rebuild it as scheme+host+path, and
append it to the queue when it is in neither `visited` nor the queue. -/
def processLinks (resolve : List Char → List Char → List Char)
    (scheme domain : List Char) (visited : List (List Char))
    (current : List Char) (links : List (List Char))
    (q : List (List Char)) : List (List Char) :=
  links.foldl (fun q link =>
    let parsed := urlsplit (resolve current link)
    if parsed.netloc = domain then
      let clean := cleanUrl scheme parsed.netloc parsed.path
      if clean ∉ visited ∧ clean ∉ q then q ++ [clean] else q
    else q) q

/-- The mutable state of the traversal loop of `crawl_docs`.  `fetchLog`
is a ghost field recording, in order, every URL passed to the fetcher. -/
structure CrawlState where
  visited : List (List Char)
  queue : List (List Char)
  discovered : List DiscoveredPage
  fetchLog : List (List Char)
deriving DecidableEq

/-- The `while queue and len(visited) < max_pages` loop of `crawl_docs`.
`fetch` returning `none` models an exception escaping `crawler.arun`
(caught, logged, loop continues). -/
def crawlLoop (fetch : List Char → Option FetchResult)
    (resolve : List Char → List Char → List Char)
    (scheme domain : List Char) (maxPages : ℕ) (s : CrawlState) : CrawlState :=
  if h : s.queue ≠ [] ∧ s.visited.length < maxPages then
    let current := s.queue.head h.1
    let rest := s.queue.tail
    if current ∈ s.visited then
      crawlLoop fetch resolve scheme domain maxPages { s with queue := rest }
    else if (urlsplit current).netloc ≠ domain then
      crawlLoop fetch resolve scheme domain maxPages { s with queue := rest }
    else
      let s1 : CrawlState :=
        { visited := s.visited ++ [current], queue := rest,
          discovered := s.discovered, fetchLog := s.fetchLog ++ [current] }
      match fetch current with
      | none => crawlLoop fetch resolve scheme domain maxPages s1
      | some r =>
        if r.success then
          crawlLoop fetch resolve scheme domain maxPages
            { s1 with
              discovered := s1.discovered ++ [mkPage current r],
              queue := processLinks resolve scheme domain s1.visited current
                ((r.linksInternal.getD []).take 10) rest }
        else crawlLoop fetch resolve scheme domain maxPages s1
  else s
termination_by (maxPages - s.visited.length, s.queue.length)
decreasing_by
  all_goals
    have h1 := h.1
    have h2 := h.2
    have hq := List.length_pos.mpr h1
    first
      | exact Prod.Lex.left _ _ (by simp; omega)
      | exact Prod.Lex.right _ (by simp [List.length_tail]; omega)

/-- Initial loop state: `visited = {}`, `queue = [seed_url]`. -/
def crawlInit (seed : List Char) : CrawlState :=
  { visited := [], queue := [seed], discovered := [], fetchLog := [] }

/-- The loop state when the traversal loop of `crawl_docs` terminates. -/
def crawlFinal (fetch : List Char → Option FetchResult)
    (resolve : List Char → List Char → List Char)
    (seed : List Char) (maxPages : ℕ) : CrawlState :=
  crawlLoop fetch resolve (urlsplit seed).scheme (urlsplit seed).netloc
    maxPages (crawlInit seed)

/-- The value `crawl_docs` returns (`crawl_time` excluded). -/
structure CrawlOutput where
  domain : List Char
  seedUrl : List Char
  urls : List DiscoveredPage
  totalDiscovered : ℕ
deriving DecidableEq

/-- Embeds `crawl_docs(seed_url, max_pages)` from crawl.py. -/
def crawl_docs (fetch : List Char → Option FetchResult)
    (resolve : List Char → List Char → List Char)
    (seed : List Char) (maxPages : ℕ) : CrawlOutput :=
  let fin := crawlFinal fetch resolve seed maxPages
  { domain := (urlsplit seed).netloc, seedUrl := seed,
    urls := fin.discovered, totalDiscovered := fin.discovered.length }

/-! ### build_index.py -/

/-- One entry of `discovered["urls"]` as build_index.py reads it: every
field is read with `.get`, so each is optional (a missing key). -/
structure DiscoveredInput where
  url : Option (List Char)
  title : Option (List Char)
  headings : Option (List (List Char))
  snippet : Option (List Char)
deriving DecidableEq

/-- One entry of `index["pages"]`. -/
structure IndexPage where
  id : ℕ
  url : Option (List Char)
  title : List Char
  text : List Char
deriving DecidableEq

/-- The combined text field: `" ".join(filter(None, [title, " ".join(headings), snippet]))`. -/
def pageText (p : DiscoveredInput) : List Char :=
  joinSep [' ']
    (([p.title.getD [], joinSep [' '] (p.headings.getD []),
       p.snippet.getD []]).filter (fun c => c ≠ []))

/-- Embeds `build_index` from build_index.py (the `pages` list; domain,
timestamp and page count are direct data shuffling around it). -/
def build_index (urls : List DiscoveredInput) : List IndexPage :=
  urls.enum.map (fun ip =>
    { id := ip.1, url := ip.2.url,
      title := (ip.2.title).getD ("Untitled".data),
      text := pageText ip.2 })

/-! ### bm25_rank.py

The tokenization, the enumeration of pages, the descending stable sort and
the `[:k]` truncation are from bm25_rank.py.  The scoring itself is done by
the external `rank_bm25.BM25Okapi` library, whose code is not part of this
repository; it is modelled from the spec below. -/

/-- Embeds `text.lower().split()` from bm25_rank.py. -/
def tokenize (cs : List Char) : List (List Char) := pySplitWs (pyLower cs)

/-- Modelled from the spec: the BM25 constant `k1 = 1.5` (the
`rank_bm25.BM25Okapi` default, not under src/). -/
noncomputable def bm25K1 : ℝ := 3 / 2

/-- Modelled from the spec: the BM25 constant `b = 0.75` (the
`rank_bm25.BM25Okapi` default, not under src/). -/
noncomputable def bm25B : ℝ := 3 / 4

/-- Modelled from the spec: the per-term inverse document frequency
`idf(t) = ln((N - n(t) + 0.5) / (n(t) + 0.5) + 1)` of the ranker (the
scoring internals of `rank_bm25.BM25Okapi` are not under src/). -/
noncomputable def idf (N nt : ℕ) : ℝ :=
  Real.log (((N : ℝ) - (nt : ℝ) + 1 / 2) / ((nt : ℝ) + 1 / 2) + 1)

/-- Document frequency `n(t)`: the number of documents containing `t`. -/
def docFreq (corpus : List (List (List Char))) (t : List Char) : ℕ :=
  (corpus.filter (fun d => decide (t ∈ d))).length

/-- Modelled from the spec: mean token count across all documents. -/
noncomputable def avgdl (corpus : List (List (List Char))) : ℝ :=
  ((corpus.map List.length).sum : ℝ) / (corpus.length : ℝ)

/-- Modelled from the spec: one query term's contribution
`idf(t) · tf(t,d)·(k1+1) / (tf(t,d) + k1·(1 − b + b·|d|/avgdl))` to a
document's score (the scoring internals of `rank_bm25.BM25Okapi` are not
under src/). -/
noncomputable def bm25TermScore (corpus : List (List (List Char)))
    (d : List (List Char)) (t : List Char) : ℝ :=
  idf corpus.length (docFreq corpus t) *
    ((d.count t : ℝ) * (bm25K1 + 1)) /
    ((d.count t : ℝ) +
      bm25K1 * (1 - bm25B + bm25B * (d.length : ℝ) / avgdl corpus))

/-- Modelled from the spec: a document's BM25 score for a query, summing
the per-term contribution over the query's term occurrences. -/
noncomputable def bm25Score (corpus : List (List (List Char)))
    (q : List (List Char)) (d : List (List Char)) : ℝ :=
  (q.map (bm25TermScore corpus d)).sum

/-- One entry of the ranked results list of bm25_rank.py. -/
structure RankedResult where
  id : ℕ
  url : Option (List Char)
  title : List Char
  score : ℝ

/-- The result records `rank_pages` builds by enumerating `index["pages"]`,
before sorting: `id` is the enumeration position, the score is the BM25
score of the tokenized page text. -/
noncomputable def rankedItems (pages : List IndexPage) (query : List Char) :
    List RankedResult :=
  let corpus := pages.map (fun p => tokenize p.text)
  let qt := tokenize query
  pages.enum.map (fun ip =>
    { id := ip.1, url := ip.2.url, title := ip.2.title,
      score := bm25Score corpus qt (corpus.getD ip.1 []) })

/-- The comparison of `sorted(..., key=lambda x: x["score"], reverse=True)`:
a stable sort into descending score order. -/
noncomputable def scoreDescLe (a c : RankedResult) : Bool :=
  decide (c.score ≤ a.score)

/-- The sorted (untruncated) result list of `rank_pages`. -/
noncomputable def rankSorted (pages : List IndexPage) (query : List Char) :
    List RankedResult :=
  (rankedItems pages query).mergeSort scoreDescLe

/-- The value `rank_pages` returns. -/
structure RankOutput where
  query : List Char
  k : ℤ
  results : List RankedResult

/-- Embeds `rank_pages(index_file, query, k)` from bm25_rank.py, taking the
already-parsed `index["pages"]` list (JSON file IO is not modelled). -/
noncomputable def rank_pages (pages : List IndexPage) (query : List Char)
    (k : ℤ) : RankOutput :=
  { query := query, k := k, results := pySlice k (rankSorted pages query) }

/-! ### Claim theorems -/

/-- Helper: the "+1 inside the log" idf is nonnegative whenever the
document frequency is at most the corpus size. -/
theorem idf_nonneg (N nt : ℕ) (h : nt ≤ N) : 0 ≤ idf N nt := by
  apply Real.log_nonneg
  have hc : (nt : ℝ) ≤ (N : ℝ) := Nat.cast_le.mpr h
  have hnum : (0 : ℝ) ≤ (N : ℝ) - (nt : ℝ) + 1 / 2 := by linarith
  have hden : (0 : ℝ) ≤ (nt : ℝ) + 1 / 2 := by positivity
  have := div_nonneg hnum hden
  linarith

/-- C1: for every corpus, the document frequency of any term lies in
`[0, N]`; the per-term idf equals `ln((N − n(t) + 0.5)/(n(t) + 0.5) + 1)`
and is nonnegative; and a document's score is the sum, over query term
occurrences, of `idf(t) · tf·(k1+1)/(tf + k1·(1 − b + b·|d|/avgdl))` with
`k1 = 1.5` and `b = 0.75`. -/
theorem bm25_idf_nonneg_and_score_formula (corpus : List (List (List Char)))
    (t : List Char) (q : List (List Char)) (d : List (List Char)) :
    docFreq corpus t ≤ corpus.length ∧
    idf corpus.length (docFreq corpus t) =
      Real.log (((corpus.length : ℝ) - (docFreq corpus t : ℝ) + 1 / 2) /
        ((docFreq corpus t : ℝ) + 1 / 2) + 1) ∧
    0 ≤ idf corpus.length (docFreq corpus t) ∧
    bm25Score corpus q d =
      (q.map (fun t =>
        idf corpus.length (docFreq corpus t) *
          ((d.count t : ℝ) * ((3 : ℝ) / 2 + 1)) /
          ((d.count t : ℝ) + (3 : ℝ) / 2 *
            (1 - (3 : ℝ) / 4 + (3 : ℝ) / 4 * (d.length : ℝ) / avgdl corpus)))).sum := by
  refine ⟨List.length_filter_le _ _, rfl, idf_nonneg _ _ (List.length_filter_le _ _), ?_⟩
  unfold bm25Score
  refine congrArg List.sum (List.map_congr_left ?_)
  intro x _
  simp [bm25TermScore, bm25K1, bm25B]

/-- C2: ranking an empty corpus returns an empty result list for every
query and every `k`. -/
theorem rank_pages_empty_corpus (query : List Char) (k : ℤ) :
    (rank_pages [] query k).results = [] := by
  unfold rank_pages rankSorted rankedItems pySlice
  simp

/-- Helper: `Pairwise` from a relation holding between all members. -/
theorem pairwise_of_mem_rel {α : Type} {R : α → α → Prop} :
    ∀ {l : List α}, (∀ a ∈ l, ∀ c ∈ l, R a c) → l.Pairwise R
  | [], _ => List.Pairwise.nil
  | a :: l, h => by
    constructor
    · intro c hc
      exact h a (by simp) c (by simp [hc])
    · exact pairwise_of_mem_rel (fun x hx y hy =>
        h x (by simp [hx]) y (by simp [hy]))

/-- Helper: the descending-score comparison is transitive. -/
theorem scoreDescLe_trans (a c e : RankedResult) :
    scoreDescLe a c = true → scoreDescLe c e = true → scoreDescLe a e = true := by
  simp only [scoreDescLe, decide_eq_true_eq]
  exact fun h1 h2 => le_trans h2 h1

/-- Helper: the descending-score comparison is total. -/
theorem scoreDescLe_total (a c : RankedResult) :
    (scoreDescLe a c || scoreDescLe c a) = true := by
  simp only [scoreDescLe, Bool.or_eq_true, decide_eq_true_eq]
  exact le_total c.score a.score

/-- Helper: `rankedItems` has one record per page. -/
theorem rankedItems_length (pages : List IndexPage) (query : List Char) :
    (rankedItems pages query).length = pages.length := by
  simp [rankedItems, List.enum_length]

/-- Helper: the sorted result list has one record per page. -/
theorem rankSorted_length (pages : List IndexPage) (query : List Char) :
    (rankSorted pages query).length = pages.length := by
  simp [rankSorted, List.length_mergeSort, rankedItems_length]

/-- Helper: the `i`-th pre-sort record carries id `i` and the BM25 score of
the `i`-th document. -/
theorem rankedItems_getElem (pages : List IndexPage) (query : List Char)
    (i : ℕ) (h : i < (rankedItems pages query).length) :
    (rankedItems pages query)[i].id = i ∧
    (rankedItems pages query)[i].score =
      bm25Score (pages.map fun p => tokenize p.text) (tokenize query)
        ((pages.map fun p => tokenize p.text).getD i []) := by
  simp only [rankedItems] at h ⊢
  rw [List.getElem_map]
  rw [List.getElem_enum]
  exact ⟨rfl, rfl⟩

/-- Helper: `pySlice` yields a sublist. -/
theorem pySlice_sublist {α : Type} (k : ℤ) (l : List α) :
    (pySlice k l).Sublist l := by
  unfold pySlice
  split <;> exact List.take_sublist _ _

/-- A throwaway record, used only as the default of `List.getD`. -/
noncomputable def defaultRanked : RankedResult := { id := 0, url := none, title := [], score := 0 }

/-- C5 (amended): for every corpus, every query and every nonnegative `k`,
`rank_pages` returns exactly `min(k, N)` results, ordered by descending
score. -/
theorem rank_pages_result_length_sorted (pages : List IndexPage)
    (query : List Char) (k : ℤ) (hk : 0 ≤ k) :
    ((rank_pages pages query k).results.length : ℤ) = min k (pages.length : ℤ) ∧
    (rank_pages pages query k).results.Pairwise (fun a c => c.score ≤ a.score) := by
  constructor
  · have hlen : (rankSorted pages query).length = pages.length :=
      rankSorted_length pages query
    simp only [rank_pages, pySlice, if_pos hk, List.length_take, hlen]
    omega
  · have hsorted := @List.sorted_mergeSort RankedResult scoreDescLe
      scoreDescLe_trans scoreDescLe_total (rankedItems pages query)
    have hp : (rankSorted pages query).Pairwise (fun a c => c.score ≤ a.score) := by
      refine List.Pairwise.imp ?_ hsorted
      intro a c h
      simpa [scoreDescLe] using h
    have hsub : (rank_pages pages query k).results.Sublist (rankSorted pages query) := by
      simp only [rank_pages]
      exact pySlice_sublist k _
    exact hp.sublist hsub

/-- C5 counterexample: with `k = -1` on a one-document corpus the Python
slice `[:k]` returns 0 results, not `min(k, N) = -1`. -/
theorem rank_pages_negative_k_cex :
    ¬(((rank_pages [{ id := 0, url := none, title := [], text := [] }] [] (-1)).results.length : ℤ) =
      min (-1 : ℤ) (([{ id := 0, url := none, title := [], text := [] }] : List IndexPage).length : ℤ)) := by
  have hlen : (rankSorted [{ id := 0, url := none, title := [], text := [] }] []).length = 1 :=
    rankSorted_length _ _
  simp only [rank_pages, pySlice]
  norm_num
  rw [hlen]
  decide

/-- C5 witness: the amended theorem applied at an empty corpus and `k = 2`. -/
theorem rank_pages_result_length_sorted_witness :
    (0 : ℤ) ≤ 2 ∧
    (((rank_pages [] [] 2).results.length : ℤ) = min 2 (([] : List IndexPage).length : ℤ) ∧
     (rank_pages [] [] 2).results.Pairwise (fun a c => c.score ≤ a.score)) :=
  ⟨by decide, rank_pages_result_length_sorted [] [] 2 (by decide)⟩

/-- C6: whenever two documents receive identical scores, the one with the
smaller document id appears first in the sorted ranking (the sort is
stable with respect to corpus order), and a query with no tokens (empty or
whitespace-only) gives every document score 0 and leaves the ranking in
original id order. -/
theorem rank_tie_stable_and_trivial_query (pages : List IndexPage)
    (query : List Char) :
    (∀ i j, i < j → j < pages.length →
      ((rankedItems pages query).getD i defaultRanked).score =
        ((rankedItems pages query).getD j defaultRanked).score →
      [i, j].Sublist ((rankSorted pages query).map (fun r => r.id))) ∧
    (tokenize query = [] →
      rankSorted pages query = rankedItems pages query ∧
      ∀ r ∈ rankedItems pages query, r.score = 0) := by
  constructor
  · intro i j hij hj hsc
    have hlen := rankedItems_length pages query
    have hi' : i < (rankedItems pages query).length := by omega
    have hj' : j < (rankedItems pages query).length := by omega
    rw [List.getD_eq_getElem _ _ hi', List.getD_eq_getElem _ _ hj'] at hsc
    have hsub : [(rankedItems pages query)[i], (rankedItems pages query)[j]].Sublist
        (rankedItems pages query) := by
      have hpw : List.Pairwise (fun x1 x2 => x1 < x2)
          ([⟨i, hi'⟩, ⟨j, hj'⟩] : List (Fin (rankedItems pages query).length)) := by
        refine List.Pairwise.cons ?_ (List.pairwise_singleton _ _)
        intro x hx
        rw [List.mem_singleton] at hx
        subst hx
        exact Fin.mk_lt_mk.mpr hij
      simpa using List.map_getElem_sublist hpw
    have hpair : List.Pairwise (fun a c => scoreDescLe a c = true)
        [(rankedItems pages query)[i], (rankedItems pages query)[j]] := by
      simp [scoreDescLe, hsc]
    have hms := List.sublist_mergeSort scoreDescLe_trans scoreDescLe_total hpair hsub
    have hmap := hms.map (fun r => r.id)
    have hidi := (rankedItems_getElem pages query i hi').1
    have hidj := (rankedItems_getElem pages query j hj').1
    simpa [rankSorted, hidi, hidj] using hmap
  · intro ht
    have hsc : ∀ r ∈ rankedItems pages query, r.score = 0 := by
      intro r hr
      simp only [rankedItems] at hr
      obtain ⟨ip, _, rfl⟩ := List.mem_map.mp hr
      simp [bm25Score, ht]
    refine ⟨?_, hsc⟩
    unfold rankSorted
    apply List.mergeSort_of_sorted
    apply pairwise_of_mem_rel
    intro a ha c hc
    simp [scoreDescLe, hsc a ha, hsc c hc]

/-- C6 witness: two zero-score documents and a whitespace-only query; the
tie keeps id order and the sort is the identity. -/
theorem rank_tie_stable_witness :
    ((0 : ℕ) < 1 ∧ 1 < ([{ id := 0, url := none, title := [], text := [] },
        { id := 1, url := none, title := [], text := [] }] : List IndexPage).length) ∧
    tokenize (' ' :: [' ']) = [] ∧
    [0, 1].Sublist ((rankSorted [{ id := 0, url := none, title := [], text := [] },
        { id := 1, url := none, title := [], text := [] }] (' ' :: [' '])).map (fun r => r.id)) ∧
    rankSorted [{ id := 0, url := none, title := [], text := [] },
        { id := 1, url := none, title := [], text := [] }] (' ' :: [' ']) =
      rankedItems [{ id := 0, url := none, title := [], text := [] },
        { id := 1, url := none, title := [], text := [] }] (' ' :: [' ']) := by
  have h := rank_tie_stable_and_trivial_query
    [{ id := 0, url := none, title := [], text := [] },
     { id := 1, url := none, title := [], text := [] }] (' ' :: [' '])
  have ht : tokenize (' ' :: [' ']) = [] := by decide
  have hz := (h.2 ht).2
  refine ⟨⟨by decide, by decide⟩, ht, ?_, (h.2 ht).1⟩
  apply h.1 0 1 (by decide) (by decide)
  have h0 : (0 : ℕ) < (rankedItems [{ id := 0, url := none, title := [], text := [] },
      { id := 1, url := none, title := [], text := [] }] (' ' :: [' '])).length := by
    rw [rankedItems_length]
    decide
  have h1 : (1 : ℕ) < (rankedItems [{ id := 0, url := none, title := [], text := [] },
      { id := 1, url := none, title := [], text := [] }] (' ' :: [' '])).length := by
    rw [rankedItems_length]
    decide
  rw [List.getD_eq_getElem _ _ h0, List.getD_eq_getElem _ _ h1]
  rw [hz _ (List.getElem_mem h0), hz _ (List.getElem_mem h1)]

/-- No two adjacent spaces occur in the string. -/
def noDoubleSpace (cs : List Char) : Prop :=
  cs.Chain' (fun a c => ¬(a = ' ' ∧ c = ' '))

/-- Executable check for `noDoubleSpace`. -/
def chainNoDbl : List Char → Bool
  | [] => true
  | [_] => true
  | a :: b :: rest => (!(a == ' ' && b == ' ')) && chainNoDbl (b :: rest)

theorem chainNoDbl_iff : ∀ cs : List Char, chainNoDbl cs = true ↔ noDoubleSpace cs
  | [] => by simp [chainNoDbl, noDoubleSpace]
  | [a] => by simp [chainNoDbl, noDoubleSpace]
  | a :: b :: rest => by
    have IH := chainNoDbl_iff (b :: rest)
    simp only [noDoubleSpace] at IH ⊢
    rw [List.chain'_cons, ← IH]
    simp [chainNoDbl]
    tauto

instance (cs : List Char) : Decidable (noDoubleSpace cs) :=
  decidable_of_iff (chainNoDbl cs = true) (chainNoDbl_iff cs)

/-- A string with no double space inside and no space at either end. -/
def cleanPiece (cs : List Char) : Prop :=
  noDoubleSpace cs ∧ cs.head? ≠ some ' ' ∧ cs.getLast? ≠ some ' '

instance (cs : List Char) : Decidable (cleanPiece cs) :=
  inferInstanceAs (Decidable (noDoubleSpace cs ∧
    cs.head? ≠ some ' ' ∧ cs.getLast? ≠ some ' '))

/-- Helper: space-joining nonempty clean pieces yields a clean piece (in
particular, no double space), and the join of a nonempty list is nonempty. -/
theorem joinSep_clean :
    ∀ l : List (List Char), (∀ x ∈ l, x ≠ [] ∧ cleanPiece x) →
      cleanPiece (joinSep [' '] l) ∧ (l ≠ [] → joinSep [' '] l ≠ [])
  | [], _ => ⟨⟨List.chain'_nil, by simp [joinSep], by simp [joinSep]⟩, by simp⟩
  | [x], h => by
    have hx := h x (by simp)
    rw [show joinSep [' '] [x] = x from rfl]
    exact ⟨hx.2, fun _ => hx.1⟩
  | x :: y :: xs, h => by
    have hx := h x (by simp)
    have hrest : ∀ z ∈ y :: xs, z ≠ [] ∧ cleanPiece z := fun z hz =>
      h z (by simp [List.mem_cons] at hz ⊢; tauto)
    have IH := joinSep_clean (y :: xs) hrest
    have hJne : joinSep [' '] (y :: xs) ≠ [] := IH.2 (by simp)
    have hJ := IH.1
    have heq : joinSep [' '] (x :: y :: xs) =
        x ++ (' ' :: joinSep [' '] (y :: xs)) := by
      show x ++ [' '] ++ joinSep [' '] (y :: xs) = _
      rw [List.append_assoc]
      rfl
    rw [heq]
    constructor
    · refine ⟨?_, ?_, ?_⟩
      · rw [noDoubleSpace, List.chain'_append]
        refine ⟨hx.2.1, ?_, ?_⟩
        · rw [List.chain'_cons']
          refine ⟨?_, hJ.1⟩
          intro z hz hand
          apply hJ.2.1
          rw [Option.mem_def] at hz
          rw [hz, hand.2]
        · intro a ha c hc hand
          apply hx.2.2.2
          rw [Option.mem_def] at ha
          rw [ha, hand.1]
      · rw [List.head?_append_of_ne_nil x hx.1]
        exact hx.2.2.1
      · rw [List.getLast?_append, List.getLast?_cons]
        obtain ⟨w, hw⟩ := Option.isSome_iff_exists.mp
          (List.getLast?_isSome.mpr hJne)
        rw [hw]
        simp only [Option.getD_some]
        have hor : (some w).or x.getLast? = some w := rfl
        rw [hor]
        intro hc
        apply hJ.2.2
        rw [hw, hc]
    · intro _ hc
      rw [List.append_eq_nil] at hc
      exact hx.1 hc.1

/-- C9: the corpus builder assigns ids `0..N-1` in input order; each text
is the space-join of title, space-joined headings and snippet with empty
components omitted; and when the nonempty components are individually free
of double spaces and boundary spaces, so is the combined text (no double
spaces arise from empty fields). -/
theorem build_index_ids_and_text (urls : List DiscoveredInput) :
    ((build_index urls).map (fun p => p.id)) = List.range urls.length ∧
    ((build_index urls).map (fun p => p.text)) = urls.map (fun p =>
      joinSep [' '] (([p.title.getD [], joinSep [' '] (p.headings.getD []),
        p.snippet.getD []]).filter (fun c => c ≠ []))) ∧
    (∀ p ∈ urls, cleanPiece (p.title.getD []) →
      (∀ h ∈ p.headings.getD [], h ≠ [] ∧ cleanPiece h) →
      cleanPiece (p.snippet.getD []) →
      noDoubleSpace (pageText p)) := by
  refine ⟨?_, ?_, ?_⟩
  · rw [← List.enum_map_fst urls]
    simp only [build_index, List.map_map]
    rfl
  · conv_rhs => rw [← List.enum_map_snd urls]
    simp only [build_index, List.map_map, pageText]
    rfl
  · intro p _ ht hh hs
    unfold pageText
    have harg : ∀ x ∈ ([p.title.getD [], joinSep [' '] (p.headings.getD []),
        p.snippet.getD []]).filter (fun c => c ≠ []), x ≠ [] ∧ cleanPiece x := by
      intro x hx
      rw [List.mem_filter] at hx
      have hxne : x ≠ [] := by simpa using hx.2
      refine ⟨hxne, ?_⟩
      have hx3 := hx.1
      simp only [List.mem_cons, List.not_mem_nil, or_false] at hx3
      rcases hx3 with rfl | rfl | rfl
      · exact ht
      · exact (joinSep_clean _ hh).1
      · exact hs
    exact ((joinSep_clean _ harg).1).1

/-- Helper: splitting at a character absent from the string is a no-op. -/
theorem splitFirst_of_not_mem {sep : Char} :
    ∀ {cs : List Char}, sep ∉ cs → splitFirst sep cs = (cs, none)
  | [], _ => rfl
  | c :: rest, h => by
    have hc : ¬(c = sep) := fun he => h (by simp [he])
    have hr : sep ∉ rest := fun hm => h (by simp [hm])
    simp [splitFirst, hc, splitFirst_of_not_mem hr]

/-- Helper: the separator never occurs in the part before it. -/
theorem sep_not_mem_splitFirst_fst (sep : Char) :
    ∀ cs : List Char, sep ∉ (splitFirst sep cs).1
  | [] => by simp [splitFirst]
  | c :: rest => by
    by_cases hc : c = sep
    · simp [splitFirst, hc]
    · intro hmem
      simp only [splitFirst, if_neg hc] at hmem
      rcases List.mem_cons.mp hmem with he | hm
      · exact hc he.symm
      · exact sep_not_mem_splitFirst_fst sep rest hm

/-- Helper: the part before the separator is made of the string's characters. -/
theorem mem_of_mem_splitFirst_fst {sep c : Char} :
    ∀ {cs : List Char}, c ∈ (splitFirst sep cs).1 → c ∈ cs
  | [], h => by simp [splitFirst] at h
  | a :: rest, h => by
    by_cases ha : a = sep
    · simp [splitFirst, ha] at h
    · simp only [splitFirst, if_neg ha] at h
      rcases List.mem_cons.mp h with he | hm
      · exact he ▸ List.mem_cons_self a rest
      · exact List.mem_cons_of_mem a (mem_of_mem_splitFirst_fst hm)

/-- Helper: the part after the separator is made of the string's characters. -/
theorem mem_of_mem_splitFirst_snd {sep c : Char} :
    ∀ {cs post : List Char}, (splitFirst sep cs).2 = some post → c ∈ post → c ∈ cs
  | [], _, h, _ => by simp [splitFirst] at h
  | a :: rest, post, h, hc => by
    by_cases ha : a = sep
    · simp only [splitFirst, if_pos ha] at h
      rw [Option.some_inj] at h
      subst h
      exact List.mem_cons_of_mem a hc
    · simp only [splitFirst, if_neg ha] at h
      exact List.mem_cons_of_mem a (mem_of_mem_splitFirst_snd h hc)

/-- Helper: a parsed netloc never contains `/`, `?` or `#`. -/
theorem urlsplit_netloc_chars (u : List Char) :
    ∀ c ∈ (urlsplit u).netloc, ¬(c = '/' ∨ c = '?' ∨ c = '#') := by
  intro c hc
  have he : (urlsplit u).netloc = (netlocSplit (schemeSplit u).2).1 := rfl
  rw [he] at hc
  unfold netlocSplit at hc
  split at hc
  · simp only [] at hc
    have h2 := List.mem_takeWhile_imp hc
    simp only [decide_eq_true_eq] at h2
    exact h2
  · simp at hc

/-- Helper: a parsed path never contains `?` or `#`. -/
theorem urlsplit_path_chars (u : List Char) :
    '?' ∉ (urlsplit u).path ∧ '#' ∉ (urlsplit u).path := by
  constructor
  · exact sep_not_mem_splitFirst_fst '?' _
  · intro hmem
    exact sep_not_mem_splitFirst_fst '#' _ (mem_of_mem_splitFirst_fst hmem)

/-- Helper: the remainder after scheme removal is made of the URL's characters. -/
theorem mem_of_mem_schemeSplit_snd {c : Char} (u : List Char) :
    c ∈ (schemeSplit u).2 → c ∈ u := by
  intro hc
  unfold schemeSplit at hc
  rcases h1 : splitFirst ':' u with ⟨pre, opost⟩
  rw [h1] at hc
  cases opost with
  | none => exact hc
  | some post =>
    simp only [] at hc
    split at hc
    · exact mem_of_mem_splitFirst_snd (by rw [h1]) hc
    · exact hc

/-- Helper: the remainder after netloc removal is made of the input's characters. -/
theorem mem_of_mem_netlocSplit_snd {c : Char} (r1 : List Char) :
    c ∈ (netlocSplit r1).2 → c ∈ r1 := by
  intro hc
  unfold netlocSplit at hc
  split at hc
  · exact List.mem_of_mem_drop (List.mem_of_mem_drop hc)
  · exact hc

/-- Helper: a URL containing neither `#` nor `?` parses with empty query
and empty fragment. -/
theorem urlsplit_no_query_fragment (u : List Char)
    (h : '#' ∉ u ∧ '?' ∉ u) :
    (urlsplit u).query = [] ∧ (urlsplit u).fragment = [] := by
  have hrest : '#' ∉ (netlocSplit (schemeSplit u).2).2 ∧
      '?' ∉ (netlocSplit (schemeSplit u).2).2 := by
    constructor
    · intro hm
      exact h.1 (mem_of_mem_schemeSplit_snd u (mem_of_mem_netlocSplit_snd _ hm))
    · intro hm
      exact h.2 (mem_of_mem_schemeSplit_snd u (mem_of_mem_netlocSplit_snd _ hm))
  have hfr : splitFirst '#' (netlocSplit (schemeSplit u).2).2 =
      ((netlocSplit (schemeSplit u).2).2, none) := splitFirst_of_not_mem hrest.1
  have hq : (urlsplit u).query =
      ((splitFirst '?' (splitFirst '#' (netlocSplit (schemeSplit u).2).2).1).2).getD [] := rfl
  have hf : (urlsplit u).fragment =
      ((splitFirst '#' (netlocSplit (schemeSplit u).2).2).2).getD [] := rfl
  constructor
  · rw [hq, hfr]
    have hq2 : splitFirst '?' (netlocSplit (schemeSplit u).2).2 =
        ((netlocSplit (schemeSplit u).2).2, none) := splitFirst_of_not_mem hrest.2
    rw [hq2]
    rfl
  · rw [hf, hfr]
    rfl

/-- Helper: the rebuilt scheme+host+path URL contains neither `#` nor `?`
when the scheme does not. -/
theorem cleanUrl_no_hash_question (scheme n p : List Char)
    (hs : '#' ∉ scheme ∧ '?' ∉ scheme)
    (hn : ∀ c ∈ n, ¬(c = '/' ∨ c = '?' ∨ c = '#'))
    (hp : '?' ∉ p ∧ '#' ∉ p) :
    '#' ∉ cleanUrl scheme n p ∧ '?' ∉ cleanUrl scheme n p := by
  constructor
  · intro hmem
    unfold cleanUrl at hmem
    rcases List.mem_append.mp hmem with hm | hm
    · exact hs.1 hm
    · rcases List.mem_cons.mp hm with he | hm
      · exact absurd he (by decide)
      · rcases List.mem_cons.mp hm with he | hm
        · exact absurd he (by decide)
        · rcases List.mem_cons.mp hm with he | hm
          · exact absurd he (by decide)
          · rcases List.mem_append.mp hm with hm | hm
            · exact (hn _ hm) (Or.inr (Or.inr rfl))
            · exact hp.2 hm
  · intro hmem
    unfold cleanUrl at hmem
    rcases List.mem_append.mp hmem with hm | hm
    · exact hs.2 hm
    · rcases List.mem_cons.mp hm with he | hm
      · exact absurd he (by decide)
      · rcases List.mem_cons.mp hm with he | hm
        · exact absurd he (by decide)
        · rcases List.mem_cons.mp hm with he | hm
          · exact absurd he (by decide)
          · rcases List.mem_append.mp hm with hm | hm
            · exact (hn _ hm) (Or.inr (Or.inl rfl))
            · exact hp.1 hm

/-- Helper: every URL the link loop adds beyond the incoming queue is a
scheme+host+path rebuild whose parse has empty query and fragment; and the
loop keeps the queue duplicate-free. -/
theorem processLinks_spec (resolve : List Char → List Char → List Char)
    (scheme domain : List Char) (visited : List (List Char))
    (current : List Char) (hs : '#' ∉ scheme ∧ '?' ∉ scheme) :
    ∀ (links : List (List Char)) (q : List (List Char)),
      (∀ u ∈ processLinks resolve scheme domain visited current links q,
        u ∈ q ∨ (∃ pr, u = cleanUrl scheme domain pr) ∧
          '#' ∉ u ∧ '?' ∉ u) ∧
      (q.Nodup → (processLinks resolve scheme domain visited current links q).Nodup)
  | [], q => ⟨fun u hu => Or.inl hu, fun hq => hq⟩
  | link :: ls, q => by
    have hstep : ∀ q1 : List (List Char),
        (∀ u ∈ (fun q link =>
            let parsed := urlsplit (resolve current link)
            if parsed.netloc = domain then
              let clean := cleanUrl scheme parsed.netloc parsed.path
              if clean ∉ visited ∧ clean ∉ q then q ++ [clean] else q
            else q) q1 link,
          u ∈ q1 ∨ (∃ pr, u = cleanUrl scheme domain pr) ∧
            '#' ∉ u ∧ '?' ∉ u) ∧
        (q1.Nodup → ((fun q link =>
            let parsed := urlsplit (resolve current link)
            if parsed.netloc = domain then
              let clean := cleanUrl scheme parsed.netloc parsed.path
              if clean ∉ visited ∧ clean ∉ q then q ++ [clean] else q
            else q) q1 link).Nodup) := by
      intro q1
      simp only []
      constructor
      · intro u hu
        split at hu
        case isTrue hdom =>
          split at hu
          case isTrue hfresh =>
            rcases List.mem_append.mp hu with hm | hm
            · exact Or.inl hm
            · rw [List.mem_singleton] at hm
              subst hm
              refine Or.inr ⟨⟨(urlsplit (resolve current link)).path, by rw [hdom]⟩, ?_⟩
              exact cleanUrl_no_hash_question scheme
                (urlsplit (resolve current link)).netloc
                (urlsplit (resolve current link)).path hs
                (urlsplit_netloc_chars _)
                (urlsplit_path_chars _)
          case isFalse => exact Or.inl hu
        case isFalse => exact Or.inl hu
      · intro hq1
        split
        case isTrue hdom =>
          split
          case isTrue hfresh =>
            rw [List.nodup_append]
            refine ⟨hq1, List.nodup_singleton _, ?_⟩
            intro x hx hx1
            rw [List.mem_singleton] at hx1
            subst hx1
            exact hfresh.2 hx
          case isFalse => exact hq1
        case isFalse => exact hq1
    have IH := processLinks_spec resolve scheme domain visited current hs ls
    constructor
    · intro u hu
      rw [processLinks, List.foldl_cons] at hu
      rcases (IH _).1 u hu with hm | hres
      · rcases (hstep q).1 u hm with hm2 | hres2
        · exact Or.inl hm2
        · exact Or.inr hres2
      · exact Or.inr hres
    · intro hq
      rw [processLinks, List.foldl_cons]
      exact (IH _).2 ((hstep q).2 hq)

/-- C10: every URL the link loop appends to the frontier queue is the
rebuilt `scheme://host/path` string, whose parse has empty query and empty
fragment (the canonicalization drops the query as well as the fragment);
and the queue stays duplicate-free, so two links differing only in their
query string yield the same rebuilt URL and are queued at most once. -/
theorem processLinks_canonical_and_dedup
    (resolve : List Char → List Char → List Char) (scheme domain : List Char)
    (visited : List (List Char)) (current : List Char)
    (links q : List (List Char))
    (hs : '#' ∉ scheme ∧ '?' ∉ scheme) (hq : q.Nodup) :
    (∀ u ∈ processLinks resolve scheme domain visited current links q,
      u ∈ q ∨ ((∃ pr, u = cleanUrl scheme domain pr) ∧
        (urlsplit u).query = [] ∧ (urlsplit u).fragment = [])) ∧
    (processLinks resolve scheme domain visited current links q).Nodup := by
  constructor
  · intro u hu
    rcases (processLinks_spec resolve scheme domain visited current hs links q).1
        u hu with hm | ⟨hpr, hhq⟩
    · exact Or.inl hm
    · exact Or.inr ⟨hpr, urlsplit_no_query_fragment u hhq⟩
  · exact (processLinks_spec resolve scheme domain visited current hs links q).2 hq

def c10resolve : List Char → List Char → List Char := fun _ l => l

def c10scheme : List Char := ['h', 't', 't', 'p', 's']

def c10domain : List Char := ['a']

/-- C10 witness: two links differing only in their query string are queued
as one canonical URL. -/
theorem processLinks_canonical_witness :
    ('#' ∉ c10scheme ∧ '?' ∉ c10scheme) ∧
    ([] : List (List Char)).Nodup ∧
    ((∀ u ∈ processLinks c10resolve c10scheme c10domain [] []
        [("https://a/x?q=1".data), ("https://a/x?q=2".data)] [],
      u ∈ ([] : List (List Char)) ∨ ((∃ pr, u = cleanUrl c10scheme c10domain pr) ∧
        (urlsplit u).query = [] ∧ (urlsplit u).fragment = [])) ∧
    (processLinks c10resolve c10scheme c10domain [] []
        [("https://a/x?q=1".data), ("https://a/x?q=2".data)] []).Nodup) ∧
    processLinks c10resolve c10scheme c10domain [] []
        [("https://a/x?q=1".data), ("https://a/x?q=2".data)] [] =
      [cleanUrl c10scheme c10domain ("/x".data)] :=
  ⟨by decide, by decide,
    processLinks_canonical_and_dedup c10resolve c10scheme c10domain [] []
      [("https://a/x?q=1".data), ("https://a/x?q=2".data)] [] (by decide) (by decide),
    by decide⟩

/-- Helper: an invariant preserved by every transition of the traversal
loop holds for the loop's final state. -/
theorem crawlLoop_preserves (fetch : List Char → Option FetchResult)
    (resolve : List Char → List Char → List Char)
    (scheme domain : List Char) (maxPages : ℕ) (P : CrawlState → Prop)
    (hskip : ∀ s : CrawlState, s.queue ≠ [] →
      P s → P { s with queue := s.queue.tail })
    (hvisit : ∀ (s : CrawlState) (h : s.queue ≠ [] ∧ s.visited.length < maxPages),
      s.queue.head h.1 ∉ s.visited →
      (urlsplit (s.queue.head h.1)).netloc = domain →
      P s → P { visited := s.visited ++ [s.queue.head h.1], queue := s.queue.tail,
                discovered := s.discovered, fetchLog := s.fetchLog ++ [s.queue.head h.1] })
    (hsucc : ∀ (s : CrawlState) (h : s.queue ≠ [] ∧ s.visited.length < maxPages)
        (r : FetchResult),
      s.queue.head h.1 ∉ s.visited →
      (urlsplit (s.queue.head h.1)).netloc = domain →
      fetch (s.queue.head h.1) = some r → r.success = true →
      P s →
      P { visited := s.visited ++ [s.queue.head h.1],
          queue := processLinks resolve scheme domain (s.visited ++ [s.queue.head h.1])
            (s.queue.head h.1) ((r.linksInternal.getD []).take 10) (s.queue.tail),
          discovered := s.discovered ++ [mkPage (s.queue.head h.1) r],
          fetchLog := s.fetchLog ++ [s.queue.head h.1] }) :
    ∀ s : CrawlState, P s → P (crawlLoop fetch resolve scheme domain maxPages s) := by
  intro s
  induction s using crawlLoop.induct fetch resolve scheme domain maxPages with
  | case1 x h current rest hmem IH =>
    intro hP
    rw [crawlLoop, dif_pos h, if_pos hmem]
    exact IH (hskip x h.1 hP)
  | case2 x h current rest hmem hdom IH =>
    intro hP
    rw [crawlLoop, dif_pos h, if_neg hmem, if_pos hdom]
    exact IH (hskip x h.1 hP)
  | case3 x h current rest hmem hdom s1 hfetch IH =>
    intro hP
    rw [crawlLoop, dif_pos h, if_neg hmem, if_neg hdom, hfetch]
    exact IH (hvisit x h hmem (not_not.mp hdom) hP)
  | case4 x h current rest hmem hdom s1 r hfetch hrs IH =>
    intro hP
    rw [crawlLoop, dif_pos h, if_neg hmem, if_neg hdom, hfetch]
    simp only []
    rw [if_pos hrs]
    exact IH (hsucc x h r hmem (not_not.mp hdom) hfetch hrs hP)
  | case5 x h current rest hmem hdom s1 r hfetch hrs IH =>
    intro hP
    rw [crawlLoop, dif_pos h, if_neg hmem, if_neg hdom, hfetch]
    simp only []
    rw [if_neg hrs]
    exact IH (hvisit x h hmem (not_not.mp hdom) hP)
  | case6 x h =>
    intro hP
    rw [crawlLoop, dif_neg h]
    exact hP

/-- C7: every discovered page's URL parses to the seed's domain, and the
number of discovered pages never exceeds `max_pages`. -/
theorem crawl_in_domain_and_bounded (fetch : List Char → Option FetchResult)
    (resolve : List Char → List Char → List Char) (seed : List Char)
    (maxPages : ℕ) (hmp : 1 ≤ maxPages) :
    (∀ p ∈ (crawl_docs fetch resolve seed maxPages).urls,
      (urlsplit p.url).netloc = (crawl_docs fetch resolve seed maxPages).domain) ∧
    (crawl_docs fetch resolve seed maxPages).urls.length ≤ maxPages := by
  have main := crawlLoop_preserves fetch resolve (urlsplit seed).scheme
    (urlsplit seed).netloc maxPages
    (fun s => (∀ p ∈ s.discovered, (urlsplit p.url).netloc = (urlsplit seed).netloc) ∧
      s.discovered.length ≤ s.visited.length ∧ s.visited.length ≤ maxPages)
    (fun s _ hP => hP)
    ?hvisit ?hsucc (crawlInit seed) ?hinit
  case hvisit =>
    intro s h _ _ hP
    refine ⟨hP.1, ?_, ?_⟩
    · rw [List.length_append]
      have := hP.2.1
      simp only [List.length_singleton]
      omega
    · rw [List.length_append]
      have := h.2
      simp only [List.length_singleton]
      omega
  case hsucc =>
    intro s h r _ hdom _ _ hP
    refine ⟨?_, ?_, ?_⟩
    · intro p hp
      rcases List.mem_append.mp hp with hm | hm
      · exact hP.1 p hm
      · rw [List.mem_singleton] at hm
        subst hm
        exact hdom
    · rw [List.length_append, List.length_append]
      have := hP.2.1
      simp only [List.length_singleton]
      omega
    · rw [List.length_append]
      have := h.2
      simp only [List.length_singleton]
      omega
  case hinit =>
    refine ⟨by simp [crawlInit], by simp [crawlInit], by simp [crawlInit]⟩
  refine ⟨main.1, le_trans main.2.1 main.2.2⟩

def c7fetch : List Char → Option FetchResult := fun _ => none

def c7resolve : List Char → List Char → List Char := fun _ l => l

/-- C7 witness: the theorem applied to a one-page crawl whose only fetch
fails. -/
theorem crawl_in_domain_and_bounded_witness :
    1 ≤ 1 ∧
    ((∀ p ∈ (crawl_docs c7fetch c7resolve ("http://a/x".data) 1).urls,
      (urlsplit p.url).netloc = (crawl_docs c7fetch c7resolve ("http://a/x".data) 1).domain) ∧
    (crawl_docs c7fetch c7resolve ("http://a/x".data) 1).urls.length ≤ 1) :=
  ⟨by decide, crawl_in_domain_and_bounded c7fetch c7resolve ("http://a/x".data) 1 (by decide)⟩

/-- C8: a single crawl never fetches the same URL twice — the fetch log is
duplicate-free — and every fetched URL is in the visited set, so a URL
whose fetch failed is never retried within the run. -/
theorem crawl_never_refetches (fetch : List Char → Option FetchResult)
    (resolve : List Char → List Char → List Char) (seed : List Char)
    (maxPages : ℕ) :
    (crawlFinal fetch resolve seed maxPages).fetchLog.Nodup ∧
    ∀ u ∈ (crawlFinal fetch resolve seed maxPages).fetchLog,
      u ∈ (crawlFinal fetch resolve seed maxPages).visited := by
  have main := crawlLoop_preserves fetch resolve (urlsplit seed).scheme
    (urlsplit seed).netloc maxPages
    (fun s => s.fetchLog.Nodup ∧ ∀ u ∈ s.fetchLog, u ∈ s.visited)
    (fun s _ hP => hP)
    ?hvisit ?hsucc (crawlInit seed) ?hinit
  case hvisit =>
    intro s h hmem _ hP
    constructor
    · rw [List.nodup_append]
      refine ⟨hP.1, List.nodup_singleton _, ?_⟩
      intro x hx hx1
      rw [List.mem_singleton] at hx1
      subst hx1
      exact hmem (hP.2 _ hx)
    · intro u hu
      rcases List.mem_append.mp hu with hm | hm
      · exact List.mem_append.mpr (Or.inl (hP.2 u hm))
      · exact List.mem_append.mpr (Or.inr hm)
  case hsucc =>
    intro s h r hmem _ _ _ hP
    constructor
    · rw [List.nodup_append]
      refine ⟨hP.1, List.nodup_singleton _, ?_⟩
      intro x hx hx1
      rw [List.mem_singleton] at hx1
      subst hx1
      exact hmem (hP.2 _ hx)
    · intro u hu
      rcases List.mem_append.mp hu with hm | hm
      · exact List.mem_append.mpr (Or.inl (hP.2 u hm))
      · exact List.mem_append.mpr (Or.inr hm)
  case hinit =>
    refine ⟨by simp [crawlInit], by simp [crawlInit]⟩
  exact main

/-- C4 (amended): every discovered page either records the seed URL
verbatim (which keeps its fragment and query, if any) or records a rebuilt
link whose parse has empty query and empty fragment. -/
theorem crawl_urls_canonical_except_seed (fetch : List Char → Option FetchResult)
    (resolve : List Char → List Char → List Char) (seed : List Char)
    (maxPages : ℕ)
    (hs : '#' ∉ (urlsplit seed).scheme ∧ '?' ∉ (urlsplit seed).scheme) :
    ∀ p ∈ (crawl_docs fetch resolve seed maxPages).urls,
      p.url = seed ∨
        ((urlsplit p.url).query = [] ∧ (urlsplit p.url).fragment = []) := by
  have main := crawlLoop_preserves fetch resolve (urlsplit seed).scheme
    (urlsplit seed).netloc maxPages
    (fun s => (∀ u ∈ s.queue, u = seed ∨ ('#' ∉ u ∧ '?' ∉ u)) ∧
      (∀ p ∈ s.discovered, p.url = seed ∨ ('#' ∉ p.url ∧ '?' ∉ p.url)))
    ?hskip ?hvisit ?hsucc (crawlInit seed) ?hinit
  case hskip =>
    intro s _ hP
    exact ⟨fun u hu => hP.1 u (List.mem_of_mem_tail hu), hP.2⟩
  case hvisit =>
    intro s h _ _ hP
    exact ⟨fun u hu => hP.1 u (List.mem_of_mem_tail hu), hP.2⟩
  case hsucc =>
    intro s h r _ _ _ _ hP
    constructor
    · intro u hu
      rcases (processLinks_spec resolve (urlsplit seed).scheme (urlsplit seed).netloc
          (s.visited ++ [s.queue.head h.1]) (s.queue.head h.1) hs
          ((r.linksInternal.getD []).take 10) s.queue.tail).1 u hu with hm | ⟨_, hnq⟩
      · exact hP.1 u (List.mem_of_mem_tail hm)
      · exact Or.inr hnq
    · intro p hp
      rcases List.mem_append.mp hp with hm | hm
      · exact hP.2 p hm
      · rw [List.mem_singleton] at hm
        subst hm
        exact hP.1 (s.queue.head h.1) (List.head_mem h.1)
  case hinit =>
    constructor
    · intro u hu
      rw [show (crawlInit seed).queue = [seed] from rfl, List.mem_singleton] at hu
      exact Or.inl hu
    · intro p hp
      simp [crawlInit] at hp
  intro p hp
  rcases main.2 p hp with hseed | hnq
  · exact Or.inl hseed
  · exact Or.inr (urlsplit_no_query_fragment p.url hnq)

def c4fetch : List Char → Option FetchResult := fun _ =>
  some { success := true, metadataTitle := some ['T'],
         rawMarkdown := none, linksInternal := none }

def c4resolve : List Char → List Char → List Char := fun _ l => l

def c4seed : List Char := "http://a/x#f".data

unseal crawlLoop in
/-- C4 counterexample: a seed URL carrying a fragment is recorded verbatim
as a discovered page, fragment and all — the page produced for the seed is
not in canonical scheme+host+path form. -/
theorem crawl_seed_fragment_cex :
    (c4fetch c4seed).isSome ∧
    ((crawl_docs c4fetch c4resolve c4seed 1).urls.map (fun p => p.url)) = [c4seed] ∧
    (urlsplit c4seed).fragment = ['f'] := by decide

/-- C4 witness: the amended theorem applied to the same crawl; the scheme
of the seed contains neither `#` nor `?`. -/
theorem crawl_urls_canonical_except_seed_witness :
    ('#' ∉ (urlsplit c4seed).scheme ∧ '?' ∉ (urlsplit c4seed).scheme) ∧
    (∀ p ∈ (crawl_docs c4fetch c4resolve c4seed 1).urls,
      p.url = c4seed ∨
        ((urlsplit p.url).query = [] ∧ (urlsplit p.url).fragment = [])) :=
  ⟨by decide, crawl_urls_canonical_except_seed c4fetch c4resolve c4seed 1 (by decide)⟩

/-- C3 (amended): a `max_pages = 1` crawl of a fetchable seed discovers
exactly one page — the seed itself — and terminates with the frontier
queue holding exactly the in-domain links extracted from the seed page
(so the queue is empty only when the seed page contributes no new
in-domain links). -/
theorem crawl_max_pages_one (fetch : List Char → Option FetchResult)
    (resolve : List Char → List Char → List Char) (seed : List Char)
    (r : FetchResult) (hf : fetch seed = some r) (hrs : r.success = true) :
    (crawlFinal fetch resolve seed 1).discovered = [mkPage seed r] ∧
    (crawlFinal fetch resolve seed 1).queue =
      processLinks resolve (urlsplit seed).scheme (urlsplit seed).netloc
        [seed] seed ((r.linksInternal.getD []).take 10) [] := by
  unfold crawlFinal
  have h0 : (crawlInit seed).queue ≠ [] ∧ (crawlInit seed).visited.length < 1 := by
    constructor <;> simp [crawlInit]
  have stop : ∀ st : CrawlState, st.visited.length = 1 →
      crawlLoop fetch resolve (urlsplit seed).scheme (urlsplit seed).netloc 1 st = st := by
    intro st hl
    rw [crawlLoop, dif_neg]
    intro hc
    exact absurd hc.2 (by omega)
  rw [crawlLoop, dif_pos h0]
  simp only [crawlInit, List.head_cons, List.tail_cons]
  rw [if_neg (List.not_mem_nil seed)]
  rw [if_neg (by simp : ¬((urlsplit seed).netloc ≠ (urlsplit seed).netloc))]
  rw [hf]
  simp only []
  rw [if_pos hrs]
  rw [stop]
  · constructor <;> simp
  · simp

def c3result : FetchResult :=
  { success := true, metadataTitle := some ['T'], rawMarkdown := none,
    linksInternal := some [("http://a/y".data)] }

def c3fetch : List Char → Option FetchResult := fun _ => some c3result

def c3resolve : List Char → List Char → List Char := fun _ l => l

def c3seed : List Char := "http://a/x".data

unseal crawlLoop in
/-- C3 counterexample: a `max_pages = 1` crawl of a fetchable seed whose
page links to another in-domain URL terminates with a nonempty frontier
queue — the spec's claim that the queue is empty thereafter fails. -/
theorem crawl_queue_nonempty_cex :
    c3fetch c3seed = some c3result ∧ c3result.success = true ∧
    (crawlFinal c3fetch c3resolve c3seed 1).discovered.length = 1 ∧
    (crawlFinal c3fetch c3resolve c3seed 1).queue = [("http://a/y".data)] := by
  refine ⟨rfl, rfl, ?_, ?_⟩ <;> decide

/-- C3 witness: the amended theorem applied to that same crawl. -/
theorem crawl_max_pages_one_witness :
    c3fetch c3seed = some c3result ∧ c3result.success = true ∧
    ((crawlFinal c3fetch c3resolve c3seed 1).discovered = [mkPage c3seed c3result] ∧
    (crawlFinal c3fetch c3resolve c3seed 1).queue =
      processLinks c3resolve (urlsplit c3seed).scheme (urlsplit c3seed).netloc
        [c3seed] c3seed ((c3result.linksInternal.getD []).take 10) []) :=
  ⟨rfl, rfl, crawl_max_pages_one c3fetch c3resolve c3seed c3result rfl rfl⟩

def c9page : DiscoveredInput :=
  { url := none, title := some ['a', 'b'],
    headings := some [['h'], ['i']], snippet := none }

/-- C9 witness: the theorem applied to a one-page input with an absent
snippet; ids come out as `0..N-1` and the text has no double space. -/
theorem build_index_ids_and_text_witness :
    cleanPiece ((c9page.title).getD []) ∧
    (∀ h ∈ (c9page.headings).getD [], h ≠ [] ∧ cleanPiece h) ∧
    cleanPiece ((c9page.snippet).getD []) ∧
    ((build_index [c9page]).map (fun p => p.id)) =
      List.range ([c9page] : List DiscoveredInput).length ∧
    noDoubleSpace (pageText c9page) := by
  refine ⟨by decide, by decide, by decide, ?_, ?_⟩
  · exact (build_index_ids_and_text [c9page]).1
  · exact (build_index_ids_and_text [c9page]).2.2 c9page (by decide)
      (by decide) (by decide) (by decide)
